import Mathlib

/-!
Verification development for the sync-rs repository: a shallow embedding of
the archive format (`sync-format`), the session and permission model
(`sync-runtime`), the sandbox host allowlist (`sync-wasm-engine`) and the
archive store (`sync-fs`), with theorems settling the frozen claims about
the natural-language specification.

Conventions: Rust `Vec<u8>` byte buffers become `List Nat`; Rust `String`
becomes Lean `String` where only equality is used and `List Char` where the
code scans bytes; fallible Rust functions returning `Result` become `Except`.
External library calls (the `toml` parser) are abstracted as an explicit
function parameter so theorems hold for any parser.
-/

namespace SyncRs

/-! ## Manifest data model (sync-format/src/manifest.rs)

Fields not consulted by any claim (`meta`, `ownership`, `verification`,
`capabilities`, `signature`) are elided from the embedding. -/

/-- Embedding of `SyncVariant` (manifest.rs). -/
inductive SyncVariant where
  | plain
  | vault
  | app
  | data
deriving DecidableEq

/-- Embedding of the `[sync]` section `SyncSection` (manifest.rs). -/
structure SyncSection where
  version : String
  content_type : String
  display_ext : String
  variant : SyncVariant
deriving DecidableEq

/-- Embedding of the `[policy]` section `ManifestPolicy` (manifest.rs). -/
structure ManifestPolicy where
  ttl : Nat
  timeout : Nat
deriving DecidableEq

/-- Embedding of the `[permissions]` section `ManifestPermissions` (manifest.rs). -/
structure ManifestPermissions where
  allow_hosts : List String
  allow_env : List String
deriving DecidableEq

/-- Embedding of the `[encryption]` section `ManifestEncryption` (manifest.rs);
the non-authoritative `meta` hints are elided. -/
structure ManifestEncryption where
  enabled : Bool
  algorithm : Option String
deriving DecidableEq

/-- Embedding of `SyncManifest` (manifest.rs), restricted to the sections the
claims consult. -/
structure SyncManifest where
  sync : SyncSection
  policy : ManifestPolicy
  permissions : ManifestPermissions
  encryption : ManifestEncryption
deriving DecidableEq

/-- Embedding of `SyncManifest::is_vault` (manifest.rs lines 267-270):
`self.sync.variant == SyncVariant::Vault || self.encryption.enabled`. -/
def SyncManifest.is_vault (m : SyncManifest) : Bool :=
  m.sync.variant == SyncVariant.vault || m.encryption.enabled

/-! ## Session and permission model (sync-runtime) -/

/-- Embedding of `GuestMode` (guest.rs). -/
inductive GuestMode where
  | widget
  | headless
deriving DecidableEq

/-- Embedding of `GuestContextRole` (guest.rs). -/
inductive GuestContextRole where
  | consumer
  | owner
deriving DecidableEq

/-- Embedding of `GuestAction` (guest.rs). -/
inductive GuestAction where
  | readPayload
  | readContext
  | writePayload
  | writeContext
  | executeWasm
  | updatePayload
deriving DecidableEq

/-- Embedding of `GuestErrorCode` (guest.rs). -/
inductive GuestErrorCode where
  | permissionDenied
  | invalidRequest
  | executionFailed
  | hostUnavailable
  | protocolError
  | ioError
deriving DecidableEq

/-- Embedding of `GuestError` (guest.rs). -/
structure GuestError where
  code : GuestErrorCode
  message : String
deriving DecidableEq

/-- Embedding of `GuestPermission` (guest.rs). -/
structure GuestPermission where
  can_read_payload : Bool
  can_read_context : Bool
  can_write_payload : Bool
  can_write_context : Bool
  can_execute_wasm : Bool
  allowed_hosts : List String
  allowed_env : List String
deriving DecidableEq

/-- Embedding of `WidgetBounds` (session.rs). -/
structure WidgetBounds where
  x : Nat
  y : Nat
  width : Nat
  height : Nat
deriving DecidableEq

/-- Embedding of `GuestSession` (session.rs). -/
structure GuestSession where
  sync_path : String
  mode : GuestMode
  role : GuestContextRole
  permissions : GuestPermission
  manifest_permissions : ManifestPermissions
  host_app : Option String
  cpu_limit_ms : Option Nat
  memory_limit_mb : Option Nat
  widget_bounds : Option WidgetBounds
deriving DecidableEq

/-- Embedding of the free function `intersect_allowlist` (session.rs lines
580-590): empty either side yields the empty list, otherwise the session
list is filtered by membership in the manifest list (the `HashSet` lookup
becomes list membership). -/
def intersect_allowlist (host : List String) (manifest : List String) : List String :=
  if host.isEmpty || manifest.isEmpty then []
  else host.filter (fun item => manifest.contains item)

/-- Embedding of `GuestSession::effective_permissions` (session.rs lines
561-572): clone the session permissions, then replace the two allowlists by
their intersection with the manifest allowlists. -/
def GuestSession.effective_permissions (s : GuestSession) : GuestPermission :=
  { s.permissions with
    allowed_env := intersect_allowlist s.permissions.allowed_env s.manifest_permissions.allow_env
    allowed_hosts :=
      intersect_allowlist s.permissions.allowed_hosts s.manifest_permissions.allow_hosts }

/-- Embedding of `GuestSession::verify_permissions` (session.rs lines
489-548): a consumer is rejected up front for anything but the two read
actions, then the per-action effective flag is checked. -/
def GuestSession.verify_permissions (s : GuestSession) (action : GuestAction) :
    Except GuestError Unit :=
  let roleGate : Except GuestError Unit :=
    if s.role = GuestContextRole.consumer then
      match action with
      | GuestAction.readPayload => Except.ok ()
      | GuestAction.readContext => Except.ok ()
      | _ =>
          Except.error (GuestError.mk GuestErrorCode.permissionDenied "Owner context required")
    else Except.ok ()
  match roleGate with
  | Except.error e => Except.error e
  | Except.ok _ =>
    let ep := s.effective_permissions
    match action with
    | GuestAction.readPayload =>
        if !ep.can_read_payload then
          Except.error (GuestError.mk GuestErrorCode.permissionDenied "read payload not allowed")
        else Except.ok ()
    | GuestAction.readContext =>
        if !ep.can_read_context then
          Except.error (GuestError.mk GuestErrorCode.permissionDenied "read context not allowed")
        else Except.ok ()
    | GuestAction.writePayload =>
        if !ep.can_write_payload then
          Except.error (GuestError.mk GuestErrorCode.permissionDenied "write payload not allowed")
        else Except.ok ()
    | GuestAction.updatePayload =>
        if !ep.can_write_payload then
          Except.error (GuestError.mk GuestErrorCode.permissionDenied "write payload not allowed")
        else Except.ok ()
    | GuestAction.writeContext =>
        if !ep.can_write_context then
          Except.error (GuestError.mk GuestErrorCode.permissionDenied "write context not allowed")
        else Except.ok ()
    | GuestAction.executeWasm =>
        if !ep.can_execute_wasm then
          Except.error (GuestError.mk GuestErrorCode.permissionDenied "execute wasm not allowed")
        else Except.ok ()

/-! ## Archive format (sync-format/src/format.rs)

The outer zip envelope is modelled as a list of entries; each entry carries
its name, its compression method, the byte offset of its data region in the
outer file (the zip reader's `data_start`), and its uncompressed content
bytes. Reading an entry (`read_to_end` on a `ZipFile`) yields the
uncompressed content. -/

/-- Embedding of `zip::CompressionMethod` restricted to the shapes the code
distinguishes. -/
inductive Compression where
  | stored
  | deflated
  | otherMethod (tag : Nat)
deriving DecidableEq

/-- One entry of the outer zip envelope, as visible through the zip reader. -/
structure ZipEntryData where
  name : String
  compression : Compression
  offset : Nat
  data : List Nat
deriving DecidableEq

/-- Embedding of `SyncEntry` (format.rs lines 9-19). -/
structure SyncEntry where
  name : String
  offset : Nat
  size : Nat
  compression : Compression
deriving DecidableEq

/-- Embedding of `SyncArchive` (format.rs lines 22-29); the `path` field is
dropped because the model passes the on-disk file contents explicitly. -/
structure SyncArchive where
  entries : List SyncEntry
  manifest : SyncManifest
  payload_offset : Option Nat
  payload_size : Option Nat
deriving DecidableEq

/-- Embedding of all the errors `SyncArchive::open`, `read_payload` and
`update_payload` produce (error.rs), restricted to the variants reachable in
the model. -/
inductive SyncError where
  | invalidFormat (msg : String)
  | missingEntry (name : String)
  | tomlError (msg : String)
  | zipError (msg : String)
deriving DecidableEq

/-- Intermediate state of the entry loop inside `SyncArchive::open`
(format.rs lines 38-72). -/
structure OpenScan where
  entries : List SyncEntry
  manifest_data : Option (List Nat)
  payload_offset : Option Nat
  payload_size : Option Nat
  has_wasm : Bool
deriving DecidableEq

/-- Embedding of the `for i in 0..archive.len()` loop of `SyncArchive::open`
(format.rs lines 44-72): record every entry, remember the manifest bytes,
note `sync.wasm`, and reject a compressed `payload` entry. -/
def scan_entries : List ZipEntryData → OpenScan → Except SyncError OpenScan
  | [], st => Except.ok st
  | e :: rest, st =>
    let st :=
      { st with entries := st.entries ++ [SyncEntry.mk e.name e.offset e.data.length e.compression] }
    if e.name = "manifest.toml" then
      scan_entries rest { st with manifest_data := some e.data }
    else if e.name = "sync.wasm" then
      scan_entries rest { st with has_wasm := true }
    else if e.name = "payload" then
      if e.compression ≠ Compression.stored then
        Except.error (SyncError.invalidFormat "payload must be stored (no compression)")
      else
        scan_entries rest { st with payload_offset := some e.offset, payload_size := some e.data.length }
    else
      scan_entries rest st

/-- Embedding of `SyncArchive::open` (format.rs lines 32-88). The `toml`
crate's `Manifest::from_toml` is abstracted as the `parse` parameter. -/
def SyncArchive.openFile (parse : List Nat → Option SyncManifest)
    (file : List ZipEntryData) : Except SyncError SyncArchive :=
  match scan_entries file (OpenScan.mk [] none none none false) with
  | Except.error e => Except.error e
  | Except.ok st =>
    match st.manifest_data with
    | none => Except.error (SyncError.missingEntry "manifest.toml")
    | some md =>
      if st.has_wasm = false then Except.error (SyncError.missingEntry "sync.wasm")
      else
        match parse md with
        | none => Except.error (SyncError.tomlError "manifest parse failed")
        | some m => Except.ok (SyncArchive.mk st.entries m st.payload_offset st.payload_size)

/-- Embedding of `SyncArchive::entry` (format.rs lines 101-103). -/
def SyncArchive.entry (a : SyncArchive) (name : String) : Option SyncEntry :=
  a.entries.find? (fun e => e.name == name)

/-- Embedding of `SyncArchive::payload_entry` (format.rs lines 106-108). -/
def SyncArchive.payload_entry (a : SyncArchive) : Option SyncEntry :=
  a.entry "payload"

/-- Embedding of `SyncArchive::has_wasm` (format.rs lines 133-135). -/
def SyncArchive.has_wasm (a : SyncArchive) : Bool :=
  (a.entry "sync.wasm").isSome

/-- Embedding of `SyncArchive::is_vault` (format.rs lines 189-191): only the
manifest's `sync.variant` is consulted. -/
def SyncArchive.is_vault (a : SyncArchive) : Bool :=
  a.manifest.sync.variant == SyncVariant.vault

/-- Embedding of the vault check inside `WasmRunner::execute`
(sync-wasm-engine/src/runner.rs line 70):
`archive.manifest().sync.variant == SyncVariant::Vault`. -/
def runner_vault_check (a : SyncArchive) : Bool :=
  a.manifest.sync.variant == SyncVariant.vault

/-- Embedding of `SyncArchive::read_payload` (format.rs lines 193-204): the
outer file is reopened and the `payload` entry is looked up by name (the zip
reader's name index keeps the last entry under a duplicated name) and read
in full; a missing entry surfaces as the zip file-not-found error. -/
def read_payload (file : List ZipEntryData) : Except SyncError (List Nat) :=
  match file.reverse.find? (fun e => e.name == "payload") with
  | some e => Except.ok e.data
  | none => Except.error (SyncError.zipError "specified file not found in archive")

/-- Model of `zip::ZipWriter` writing a sequence of entries with the stored
method starting at a given offset: each entry's data region begins after its
30-byte local file header plus its UTF-8 name. -/
def write_stored_entries_from (off : Nat) : List (String × List Nat) → List ZipEntryData
  | [] => []
  | (n, d) :: rest =>
    let dataStart := off + 30 + n.utf8ByteSize
    ZipEntryData.mk n Compression.stored dataStart d ::
      write_stored_entries_from (dataStart + d.length) rest

/-- Model of a fresh zip file written entirely with the stored method. -/
def write_stored_entries (items : List (String × List Nat)) : List ZipEntryData :=
  write_stored_entries_from 0 items

/-- Embedding of the copy loop of `SyncArchive::update_payload` (format.rs
lines 161-173): every entry other than `payload` has its (uncompressed)
contents read and queued for rewriting, in order. -/
def copy_entries_except_payload : List ZipEntryData → List (String × List Nat)
  | [] => []
  | e :: rest =>
    if e.name = "payload" then copy_entries_except_payload rest
    else (e.name, e.data) :: copy_entries_except_payload rest

/-- The file produced by `SyncArchive::update_payload` (format.rs lines
147-186) after the tempfile is renamed over the original: the copied
entries followed by a fresh stored `payload` entry, all written with the
stored method (`FileOptions::default().compression_method(Stored)`). -/
def updated_file (file : List ZipEntryData) (newPayload : List Nat) : List ZipEntryData :=
  write_stored_entries (copy_entries_except_payload file ++ [("payload", newPayload)])

/-- Embedding of `SyncArchive::update_payload` (format.rs lines 147-186):
write the updated file, rename it over the original, then reopen. Returns
the new on-disk file together with the reopened archive. -/
def update_payload (parse : List Nat → Option SyncManifest)
    (file : List ZipEntryData) (newPayload : List Nat) :
    Except SyncError (List ZipEntryData × SyncArchive) :=
  let newFile := updated_file file newPayload
  match SyncArchive.openFile parse newFile with
  | Except.ok a => Except.ok (newFile, a)
  | Except.error e => Except.error e

/-- Entry presence in a zip file, by name. -/
def containsEntry (file : List ZipEntryData) (name : String) : Bool :=
  file.any (fun e => e.name == name)

/-- Every entry named `payload` in the file uses the stored method. -/
def payloads_stored (file : List ZipEntryData) : Bool :=
  file.all (fun e => e.name != "payload" || e.compression == Compression.stored)

/-- The `SyncEntry` index recorded by the open loop, one per zip entry in
file order. -/
def mkEntries (file : List ZipEntryData) : List SyncEntry :=
  file.map (fun e => SyncEntry.mk e.name e.offset e.data.length e.compression)

/-- The last entry of the file carrying the given name, if any (the zip
name index keeps the last duplicate, and the open loop overwrites earlier
occurrences). -/
def last_entry (name : String) : List ZipEntryData → Option ZipEntryData
  | [] => none
  | e :: rest => (last_entry name rest).or (if e.name == name then some e else none)

theorem option_some_or {α : Type} (x : α) (b : Option α) : (some x).or b = some x := rfl

theorem option_none_or {α : Type} (b : Option α) : (none : Option α).or b = b := rfl

theorem option_or_none {α : Type} (a : Option α) : a.or none = a := by cases a <;> rfl

theorem option_or_assoc {α : Type} (a b c : Option α) : (a.or b).or c = a.or (b.or c) := by
  cases a <;> rfl

theorem option_map_or {α β : Type} (f : α → β) (a b : Option α) :
    (a.or b).map f = (a.map f).or (b.map f) := by
  cases a <;> rfl

theorem find?_or_append {α : Type} (p : α → Bool) (l₁ l₂ : List α) :
    (l₁ ++ l₂).find? p = (l₁.find? p).or (l₂.find? p) := by
  induction l₁ with
  | nil => simp [option_none_or]
  | cons x xs ih => by_cases h : p x <;> simp [List.find?_cons, h, ih, option_some_or]

theorem find?_singleton {α : Type} (p : α → Bool) (e : α) :
    [e].find? p = if p e then some e else none := by
  by_cases h : p e <;> simp [List.find?_cons, h]

theorem last_entry_eq_reverse_find (name : String) (file : List ZipEntryData) :
    file.reverse.find? (fun e => e.name == name) = last_entry name file := by
  induction file with
  | nil => rfl
  | cons e rest ih =>
      rw [List.reverse_cons, find?_or_append, ih, find?_singleton, last_entry]

theorem last_entry_mem (name : String) (file : List ZipEntryData) (e : ZipEntryData)
    (h : last_entry name file = some e) : e ∈ file ∧ e.name = name := by
  induction file with
  | nil => simp [last_entry] at h
  | cons x rest ih =>
      rw [last_entry] at h
      cases hr : last_entry name rest with
      | some f =>
          rw [hr, option_some_or] at h
          obtain ⟨h1, h2⟩ := ih (hr.trans h)
          exact ⟨List.mem_cons_of_mem _ h1, h2⟩
      | none =>
          rw [hr, option_none_or] at h
          split at h
          · rename_i hx
            cases h
            exact ⟨List.mem_cons_self _ _, by simpa using hx⟩
          · cases h

theorem last_entry_isSome_iff (name : String) (file : List ZipEntryData) :
    (last_entry name file).isSome = containsEntry file name := by
  simp only [containsEntry]
  induction file with
  | nil => rfl
  | cons e rest ih =>
      rw [last_entry, List.any_cons]
      cases hr : last_entry name rest with
      | some f =>
          rw [hr] at ih
          rw [option_some_or]
          simp [option_some_or, ← ih]
      | none =>
          rw [hr] at ih
          rw [option_none_or, ← ih]
          cases hx : (e.name == name) <;> simp [hx]

/-- Full characterization of the open loop: it fails exactly when some
`payload` entry is compressed, and otherwise appends the entry index and
keeps the last manifest bytes, the last payload offset and size, and
whether `sync.wasm` occurred. -/
theorem scan_entries_eq (file : List ZipEntryData) (st : OpenScan) :
    scan_entries file st =
      if payloads_stored file then
        Except.ok (OpenScan.mk (st.entries ++ mkEntries file)
          (((last_entry "manifest.toml" file).map ZipEntryData.data).or st.manifest_data)
          (((last_entry "payload" file).map ZipEntryData.offset).or st.payload_offset)
          (((last_entry "payload" file).map (fun e => e.data.length)).or st.payload_size)
          (st.has_wasm || containsEntry file "sync.wasm"))
      else Except.error (SyncError.invalidFormat "payload must be stored (no compression)") := by
  induction file generalizing st with
  | nil => simp [scan_entries, payloads_stored, last_entry, containsEntry, mkEntries,
      option_none_or]
  | cons e rest ih =>
      rw [scan_entries]
      by_cases hm : e.name = "manifest.toml"
      · rw [if_pos hm, ih]
        have hs : payloads_stored (e :: rest) = payloads_stored rest := by
          simp [payloads_stored, List.all_cons, hm]
        rw [hs]
        split
        · simp [mkEntries, last_entry, containsEntry, List.any_cons, hm, option_or_assoc,
            option_map_or, option_some_or, option_or_none]
        · rfl
      · rw [if_neg hm]
        by_cases hw : e.name = "sync.wasm"
        · rw [if_pos hw, ih]
          have hs : payloads_stored (e :: rest) = payloads_stored rest := by
            simp [payloads_stored, List.all_cons, hw]
          rw [hs]
          split
          · simp [mkEntries, last_entry, containsEntry, List.any_cons, hm, hw, option_or_assoc,
              option_map_or, option_some_or, option_or_none]
          · rfl
        · rw [if_neg hw]
          by_cases hpl : e.name = "payload"
          · rw [if_pos hpl]
            by_cases hc : e.compression = Compression.stored
            · rw [if_neg (by simpa using hc), ih]
              have hs : payloads_stored (e :: rest) = payloads_stored rest := by
                simp [payloads_stored, List.all_cons, hpl, hc]
              rw [hs]
              split
              · simp [mkEntries, last_entry, containsEntry, List.any_cons, hm, hw, hpl,
                  option_or_assoc, option_map_or, option_some_or, option_or_none]
              · rfl
            · rw [if_pos (by simpa using hc)]
              have hs : payloads_stored (e :: rest) = false := by
                simp [payloads_stored, List.all_cons, hpl, hc]
              rw [hs]
              simp
          · rw [if_neg hpl, ih]
            have hs : payloads_stored (e :: rest) = payloads_stored rest := by
              simp [payloads_stored, List.all_cons, hpl]
            have hmb : (e.name == "manifest.toml") = false := by simp [hm]
            have hwb : (e.name == "sync.wasm") = false := by simp [hw]
            have hpb : (e.name == "payload") = false := by simp [hpl]
            rw [hs]
            split
            · simp [mkEntries, last_entry, containsEntry, List.any_cons, hmb, hwb, hpb,
                option_or_assoc, option_map_or, option_some_or, option_or_none]
            · rfl

theorem openFile_not_stored (parse : List Nat → Option SyncManifest)
    (file : List ZipEntryData) (h : payloads_stored file = false) :
    SyncArchive.openFile parse file =
      Except.error (SyncError.invalidFormat "payload must be stored (no compression)") := by
  simp only [SyncArchive.openFile]
  rw [scan_entries_eq, h]
  rfl

theorem openFile_stored_shape (parse : List Nat → Option SyncManifest)
    (file : List ZipEntryData) (h : payloads_stored file = true) :
    SyncArchive.openFile parse file =
      match (last_entry "manifest.toml" file).map ZipEntryData.data with
      | none => Except.error (SyncError.missingEntry "manifest.toml")
      | some md =>
        if containsEntry file "sync.wasm" = false then
          Except.error (SyncError.missingEntry "sync.wasm")
        else
          match parse md with
          | none => Except.error (SyncError.tomlError "manifest parse failed")
          | some m =>
            Except.ok (SyncArchive.mk (mkEntries file) m
              ((last_entry "payload" file).map ZipEntryData.offset)
              ((last_entry "payload" file).map (fun e => e.data.length))) := by
  simp only [SyncArchive.openFile]
  rw [scan_entries_eq, h]
  simp only [option_or_none, List.nil_append, Bool.false_or]
  cases (last_entry "manifest.toml" file).map ZipEntryData.data with
  | none => rfl
  | some md =>
      simp only []
      cases hc : containsEntry file "sync.wasm" with
      | false => simp [hc]
      | true => simp [hc]

theorem not_contains_payload_stored (file : List ZipEntryData)
    (h : containsEntry file "payload" = false) : payloads_stored file = true := by
  induction file with
  | nil => rfl
  | cons e rest ih =>
      rw [containsEntry, List.any_cons, Bool.or_eq_false_iff] at h
      rw [payloads_stored, List.all_cons]
      have h2 := ih (by rw [containsEntry]; exact h.2)
      rw [payloads_stored] at h2
      rw [h2]
      simp [bne, h.1]

theorem find?_mkEntries (file : List ZipEntryData) (n : String) :
    ((mkEntries file).find? (fun e => e.name == n)).isSome = containsEntry file n := by
  induction file with
  | nil => rfl
  | cons e rest ih =>
      rw [mkEntries, List.map_cons, containsEntry, List.any_cons]
      by_cases h : (e.name == n) = true
      · rw [List.find?_cons_of_pos _ (by simpa using h)]
        simp [h]
      · have hb : (e.name == n) = false := by simpa using h
        rw [List.find?_cons_of_neg _ (by simpa using h), hb]
        rw [mkEntries] at ih
        rw [ih, containsEntry]
        simp

/-- Claim C7: over a well-formed envelope (one whose manifest bytes, when a
manifest entry is present, parse), `SyncArchive::open` succeeds iff
`manifest.toml` and `sync.wasm` are present and every `payload` entry is
stored; with all payloads stored, a missing required entry yields a
missing-entry error, and a compressed payload always yields the
invalid-format error. -/
theorem claim_C7_open_layout (parse : List Nat → Option SyncManifest)
    (file : List ZipEntryData)
    (hp : ∀ e ∈ file, e.name = "manifest.toml" → (parse e.data).isSome = true) :
    ((SyncArchive.openFile parse file).isOk = true ↔
      (containsEntry file "manifest.toml" = true ∧ containsEntry file "sync.wasm" = true ∧
        payloads_stored file = true)) ∧
    (payloads_stored file = true →
      (containsEntry file "manifest.toml" = false ∨ containsEntry file "sync.wasm" = false) →
      (SyncArchive.openFile parse file = Except.error (SyncError.missingEntry "manifest.toml") ∨
       SyncArchive.openFile parse file = Except.error (SyncError.missingEntry "sync.wasm"))) ∧
    (payloads_stored file = false →
      SyncArchive.openFile parse file =
        Except.error (SyncError.invalidFormat "payload must be stored (no compression)")) := by
  refine ⟨?_, ?_, fun hs => openFile_not_stored parse file hs⟩
  · cases hs : payloads_stored file with
    | false =>
        rw [openFile_not_stored parse file hs]
        simp [Except.isOk, Except.toBool]
    | true =>
        rw [openFile_stored_shape parse file hs]
        cases hme : last_entry "manifest.toml" file with
        | none =>
            have hmc : containsEntry file "manifest.toml" = false := by
              rw [← last_entry_isSome_iff, hme]
              rfl
            simp [hmc, Except.isOk, Except.toBool]
        | some e =>
            have hmc : containsEntry file "manifest.toml" = true := by
              rw [← last_entry_isSome_iff, hme]
              rfl
            obtain ⟨hm1, hm2⟩ := last_entry_mem _ _ _ hme
            cases hw : containsEntry file "sync.wasm" with
            | false => simp [hw, Except.isOk, Except.toBool, hmc]
            | true =>
                have hps := hp e hm1 hm2
                cases hpe : parse e.data with
                | none => rw [hpe] at hps; simp at hps
                | some m => simp [hw, hpe, Except.isOk, Except.toBool, hmc]
  · intro hs hmiss
    rw [openFile_stored_shape parse file hs]
    cases hme : last_entry "manifest.toml" file with
    | none => left; rfl
    | some e =>
        have hmc : containsEntry file "manifest.toml" = true := by
          rw [← last_entry_isSome_iff, hme]
          rfl
        rcases hmiss with hmiss | hmiss
        · rw [hmc] at hmiss
          simp at hmiss
        · right
          simp [hmiss]

/-- Constant manifest parser standing in for `Manifest::from_toml` when the
witness file's manifest bytes are fixed. -/
def parseConst (m : SyncManifest) : List Nat → Option SyncManifest := fun _ => some m

/-- A plain, unencrypted manifest. -/
def manifestPlain : SyncManifest :=
  { sync :=
      { version := "1.3", content_type := "text/plain", display_ext := "txt"
        variant := SyncVariant.plain }
    policy := { ttl := 3600, timeout := 30 }
    permissions := { allow_hosts := [], allow_env := [] }
    encryption := { enabled := false, algorithm := none } }

/-- A manifest whose `sync.variant` is `plain` but whose `[encryption]`
section has `enabled = true`: the failing input for claim C3. -/
def manifestEncryptedPlain : SyncManifest :=
  { sync :=
      { version := "1.3", content_type := "text/plain", display_ext := "txt"
        variant := SyncVariant.plain }
    policy := { ttl := 3600, timeout := 30 }
    permissions := { allow_hosts := [], allow_env := [] }
    encryption := { enabled := true, algorithm := some "age-v1" } }

/-- A concrete valid envelope: deflated manifest and wasm entries, stored
payload. -/
def sampleFile : List ZipEntryData :=
  [ZipEntryData.mk "manifest.toml" Compression.deflated 43 [116, 111],
   ZipEntryData.mk "sync.wasm" Compression.deflated 101 [0, 97, 115, 109],
   ZipEntryData.mk "payload" Compression.stored 150 [104, 105]]

/-- A concrete valid envelope with no payload entry. -/
def sampleFileNoPayload : List ZipEntryData :=
  [ZipEntryData.mk "manifest.toml" Compression.stored 43 [116, 111],
   ZipEntryData.mk "sync.wasm" Compression.stored 101 [0, 97, 115, 109]]

/-- Witness for claim C7 at a concrete archive: opening succeeds exactly as
the layout invariant predicts. -/
theorem claim_C7_witness :
    (SyncArchive.openFile (parseConst manifestPlain) sampleFile).isOk = true := by
  have h := claim_C7_open_layout (parseConst manifestPlain) sampleFile (by decide)
  exact h.1.mpr (by decide)

/-- Claim C10: an envelope with a parseable manifest and a wasm module but
no payload entry opens successfully; the payload entry, offset and size
accessors all return none, and `read_payload` returns an error. -/
theorem claim_C10_no_payload (parse : List Nat → Option SyncManifest)
    (file : List ZipEntryData)
    (hp : ∀ e ∈ file, e.name = "manifest.toml" → (parse e.data).isSome = true)
    (hm : containsEntry file "manifest.toml" = true)
    (hw : containsEntry file "sync.wasm" = true)
    (hnop : containsEntry file "payload" = false) :
    (SyncArchive.openFile parse file).map
        (fun a => (a.payload_entry, a.payload_offset, a.payload_size)) =
      Except.ok (none, none, none) ∧
    read_payload file = Except.error (SyncError.zipError "specified file not found in archive") := by
  have hs : payloads_stored file = true := not_contains_payload_stored file hnop
  have hple : last_entry "payload" file = none := by
    have hiso := last_entry_isSome_iff "payload" file
    rw [hnop] at hiso
    cases hpl : last_entry "payload" file with
    | none => rfl
    | some e => rw [hpl] at hiso; simp at hiso
  constructor
  · rw [openFile_stored_shape parse file hs]
    cases hme : last_entry "manifest.toml" file with
    | none =>
        have hcon := last_entry_isSome_iff "manifest.toml" file
        rw [hme, hm] at hcon
        simp at hcon
    | some e =>
        obtain ⟨hm1, hm2⟩ := last_entry_mem _ _ _ hme
        have hps := hp e hm1 hm2
        cases hpe : parse e.data with
        | none => rw [hpe] at hps; simp at hps
        | some mm =>
            have hfind : (mkEntries file).find? (fun x => x.name == "payload") = none := by
              have hiso := find?_mkEntries file "payload"
              rw [hnop] at hiso
              cases hf : (mkEntries file).find? (fun x => x.name == "payload") with
              | none => rfl
              | some x => rw [hf] at hiso; simp at hiso
            simp only [Option.map_some']
            rw [if_neg (by simp [hw]), hpe, hple]
            simp [Except.map, SyncArchive.payload_entry, SyncArchive.entry, hfind]
  · rw [read_payload, last_entry_eq_reverse_find, hple]

/-- Witness for claim C10 on a concrete envelope without a payload entry. -/
theorem claim_C10_witness :
    (SyncArchive.openFile (parseConst manifestPlain) sampleFileNoPayload).map
        (fun a => (a.payload_entry, a.payload_offset, a.payload_size)) =
      Except.ok (none, none, none) ∧
    read_payload sampleFileNoPayload =
      Except.error (SyncError.zipError "specified file not found in archive") :=
  claim_C10_no_payload (parseConst manifestPlain) sampleFileNoPayload
    (by decide) (by decide) (by decide) (by decide)

/-- Claim C3 (code-bug evidence): on an archive whose manifest has
`variant = plain` but `encryption.enabled = true`, the archive-level
`SyncArchive::is_vault` and the engine's vault check both return `false`,
while the manifest-level `SyncManifest::is_vault` (the spec's
`variant == vault OR encryption.enabled` rule) returns `true`. -/
theorem claim_C3_vault_check_ignores_encryption :
    (SyncArchive.openFile (parseConst manifestEncryptedPlain) sampleFile).map
        SyncArchive.is_vault = Except.ok false ∧
    (SyncArchive.openFile (parseConst manifestEncryptedPlain) sampleFile).map
        runner_vault_check = Except.ok false ∧
    SyncManifest.is_vault manifestEncryptedPlain = true := by
  refine ⟨rfl, rfl, rfl⟩

theorem write_from_names_data (off : Nat) (items : List (String × List Nat)) :
    (write_stored_entries_from off items).map (fun e => (e.name, e.data)) = items := by
  induction items generalizing off with
  | nil => rfl
  | cons x rest ih => simp [write_stored_entries_from, ih]

theorem write_from_all_stored (off : Nat) (items : List (String × List Nat)) :
    ∀ e ∈ write_stored_entries_from off items, e.compression = Compression.stored := by
  induction items generalizing off with
  | nil => intro e he; simp [write_stored_entries_from] at he
  | cons x rest ih =>
      intro e he
      rw [write_stored_entries_from] at he
      rcases List.mem_cons.mp he with he | he
      · rw [he]
      · exact ih _ e he

theorem write_from_append_single (off : Nat) (xs : List (String × List Nat))
    (n : String) (d : List Nat) :
    ∃ o, write_stored_entries_from off (xs ++ [(n, d)]) =
      write_stored_entries_from off xs ++ [ZipEntryData.mk n Compression.stored o d] := by
  induction xs generalizing off with
  | nil => exact ⟨off + 30 + n.utf8ByteSize, rfl⟩
  | cons x rest ih =>
      obtain ⟨o, ho⟩ := ih (off + 30 + x.1.utf8ByteSize + x.2.length)
      refine ⟨o, ?_⟩
      rw [List.cons_append, write_stored_entries_from, write_stored_entries_from, ho,
        List.cons_append]

theorem last_entry_append_single_matching (n : String) (l : List ZipEntryData)
    (x : ZipEntryData) (hx : (x.name == n) = true) : last_entry n (l ++ [x]) = some x := by
  induction l with
  | nil => simp [last_entry, hx, option_none_or]
  | cons e rest ih => rw [List.cons_append, last_entry, ih, option_some_or]

theorem copy_entries_eq_filter_map (file : List ZipEntryData) :
    copy_entries_except_payload file =
      (file.filter (fun e => e.name != "payload")).map (fun e => (e.name, e.data)) := by
  induction file with
  | nil => rfl
  | cons e rest ih =>
      by_cases h : e.name = "payload"
      · rw [copy_entries_except_payload, if_pos h, ih, List.filter_cons]
        simp [h]
      · rw [copy_entries_except_payload, if_neg h, ih, List.filter_cons]
        simp [h]

theorem copy_entries_no_payload (file : List ZipEntryData) :
    ∀ p ∈ copy_entries_except_payload file, p.1 ≠ "payload" := by
  intro p hp
  rw [copy_entries_eq_filter_map] at hp
  obtain ⟨e, he, rfl⟩ := List.mem_map.mp hp
  have := (List.mem_filter.mp he).2
  simpa using this

/-- Claim C5 (amended): `update_payload` rewrites the archive as the copied
entries (every entry except `payload`, names and uncompressed contents
preserved in order) followed by a fresh `payload` entry holding exactly the
new bytes, and every entry of the rewritten file — the copied ones included
— is written with the stored method. -/
theorem claim_C5_update_payload_rewrite (file : List ZipEntryData) (B : List Nat) :
    (updated_file file B).map (fun e => (e.name, e.data)) =
      (file.filter (fun e => e.name != "payload")).map (fun e => (e.name, e.data)) ++
        [("payload", B)] ∧
    (∀ e ∈ updated_file file B, e.compression = Compression.stored) := by
  constructor
  · rw [updated_file, write_stored_entries, write_from_names_data, copy_entries_eq_filter_map]
  · intro e he
    exact write_from_all_stored 0 _ e he

/-- Counterexample to claim C5 as stated: on an archive whose
`manifest.toml` entry is deflated, the rewritten archive's `manifest.toml`
entry is stored — the compression method of a copied entry is not
preserved by `update_payload`. -/
theorem claim_C5_counterexample :
    (sampleFile.find? (fun e => e.name == "manifest.toml")).map (fun e => e.compression) =
      some Compression.deflated ∧
    ((updated_file sampleFile [1, 2, 3]).find? (fun e => e.name == "manifest.toml")).map
        (fun e => e.compression) = some Compression.stored := by
  exact ⟨rfl, rfl⟩

theorem openFile_ok_fields (parse : List Nat → Option SyncManifest)
    (file : List ZipEntryData) (a : SyncArchive)
    (h : SyncArchive.openFile parse file = Except.ok a) :
    a.entries = mkEntries file ∧
    a.payload_offset = (last_entry "payload" file).map ZipEntryData.offset ∧
    a.payload_size = (last_entry "payload" file).map (fun e => e.data.length) ∧
    containsEntry file "sync.wasm" = true ∧
    payloads_stored file = true := by
  cases hs : payloads_stored file with
  | false => rw [openFile_not_stored parse file hs] at h; simp at h
  | true =>
      rw [openFile_stored_shape parse file hs] at h
      cases hme : last_entry "manifest.toml" file with
      | none => rw [hme] at h; simp at h
      | some e =>
          rw [hme] at h
          simp only [Option.map_some'] at h
          cases hw : containsEntry file "sync.wasm" with
          | false => rw [hw] at h; simp at h
          | true =>
              rw [hw] at h
              simp only [Bool.true_eq_false, if_false] at h
              cases hpe : parse e.data with
              | none => rw [hpe] at h; simp at h
              | some m =>
                  rw [hpe] at h
                  cases h
                  exact ⟨rfl, rfl, rfl, rfl, rfl⟩

/-- Claim C6: whenever `update_payload` succeeds, the reopened in-memory
archive reports the new payload size, reading the payload from the
rewritten file returns exactly the new bytes, the wasm entry is still
present, and reopening the file from disk yields exactly the in-memory
archive state. -/
theorem claim_C6_update_payload_readback (parse : List Nat → Option SyncManifest)
    (file : List ZipEntryData) (B : List Nat) (nf : List ZipEntryData) (a : SyncArchive)
    (h : update_payload parse file B = Except.ok (nf, a)) :
    a.payload_size = some B.length ∧
    read_payload nf = Except.ok B ∧
    a.has_wasm = true ∧
    SyncArchive.openFile parse nf = Except.ok a := by
  rw [update_payload] at h
  cases ho : SyncArchive.openFile parse (updated_file file B) with
  | error e => rw [ho] at h; simp at h
  | ok b =>
      rw [ho] at h
      injection h with h1
      have hnf : updated_file file B = nf := congrArg Prod.fst h1
      have hab : b = a := congrArg Prod.snd h1
      subst hnf
      subst hab
      obtain ⟨hent, hoff, hsize, hwasm, hstored⟩ := openFile_ok_fields parse _ b ho
      obtain ⟨o, hw⟩ :=
        write_from_append_single 0 (copy_entries_except_payload file) "payload" B
      have hlast : last_entry "payload" (updated_file file B) =
          some (ZipEntryData.mk "payload" Compression.stored o B) := by
        rw [updated_file, write_stored_entries, hw]
        exact last_entry_append_single_matching _ _ _ (by simp)
      refine ⟨?_, ?_, ?_, ho⟩
      · rw [hsize, hlast]
        rfl
      · rw [read_payload, last_entry_eq_reverse_find, hlast]
      · rw [SyncArchive.has_wasm, SyncArchive.entry, hent, find?_mkEntries, hwasm]

theorem payloads_stored_of_all_stored (file : List ZipEntryData)
    (h : ∀ e ∈ file, e.compression = Compression.stored) : payloads_stored file = true := by
  rw [payloads_stored, List.all_eq_true]
  intro e he
  rw [h e he]
  simp

theorem containsEntry_eq_any_names (file : List ZipEntryData) (n : String) :
    containsEntry file n = (file.map (fun e => (e.name, e.data))).any (fun p => p.1 == n) := by
  induction file with
  | nil => rfl
  | cons e rest ih =>
      simp only [containsEntry] at ih ⊢
      rw [List.any_cons, List.map_cons, List.any_cons, ih]

theorem openFile_isOk_of (parse : List Nat → Option SyncManifest) (file : List ZipEntryData)
    (hp : ∀ e ∈ file, e.name = "manifest.toml" → (parse e.data).isSome = true)
    (hm : containsEntry file "manifest.toml" = true)
    (hw : containsEntry file "sync.wasm" = true)
    (hs : payloads_stored file = true) :
    (SyncArchive.openFile parse file).isOk = true := by
  rw [openFile_stored_shape parse file hs]
  cases hme : last_entry "manifest.toml" file with
  | none =>
      have hcon := last_entry_isSome_iff "manifest.toml" file
      rw [hme, hm] at hcon
      simp at hcon
  | some e =>
      obtain ⟨hm1, hm2⟩ := last_entry_mem _ _ _ hme
      have hps := hp e hm1 hm2
      cases hpe : parse e.data with
      | none => rw [hpe] at hps; simp at hps
      | some m => simp [hw, hpe, Except.isOk, Except.toBool]

theorem update_payload_isOk (parse : List Nat → Option SyncManifest)
    (file : List ZipEntryData) (B : List Nat)
    (h : (SyncArchive.openFile parse (updated_file file B)).isOk = true) :
    (update_payload parse file B).isOk = true := by
  rw [update_payload]
  cases ho : SyncArchive.openFile parse (updated_file file B) with
  | error e => rw [ho] at h; simp [Except.isOk, Except.toBool] at h
  | ok a => simp [Except.isOk, Except.toBool]

/-- Witness for claim C6 at a concrete archive and payload. -/
theorem claim_C6_witness :
    (update_payload (parseConst manifestPlain) sampleFile [9, 9]).map
        (fun p => (p.2.payload_size, read_payload p.1, p.2.has_wasm)) =
      Except.ok (some 2, Except.ok [9, 9], true) := by
  have hok : (update_payload (parseConst manifestPlain) sampleFile [9, 9]).isOk = true := by
    refine update_payload_isOk _ _ _ (openFile_isOk_of _ _ (fun e _ _ => rfl) ?_ ?_ ?_)
    · rw [containsEntry_eq_any_names, updated_file, write_stored_entries, write_from_names_data]
      decide
    · rw [containsEntry_eq_any_names, updated_file, write_stored_entries, write_from_names_data]
      decide
    · exact payloads_stored_of_all_stored _ (write_from_all_stored 0 _)
  cases hu : update_payload (parseConst manifestPlain) sampleFile [9, 9] with
  | error e => rw [hu] at hok; simp [Except.isOk, Except.toBool] at hok
  | ok p =>
      obtain ⟨h1, h2, h3, _⟩ :=
        claim_C6_update_payload_readback (parseConst manifestPlain) sampleFile [9, 9] p.1 p.2
          (by rw [hu])
      simp only [Except.map]
      rw [h1, h2, h3]
      rfl

/-! ## Host allowlist check (sync-wasm-engine/src/host.rs)

`HostState::is_host_allowed` scans bytes; the embedding works on `List Char`
(all URL and hostname text relevant here is ASCII, where bytes and
characters coincide). -/

/-- Convenience: the character list of a string literal. -/
def chars (s : String) : List Char := s.data

/-- Rust slicing up to the first occurrence of a character
(`&s[..pos]` after `s.find(c)`, or the whole text when absent). -/
def takeUntilChar (c : Char) : List Char → List Char
  | [] => []
  | x :: xs => if x = c then [] else x :: takeUntilChar c xs

/-- Embedding of `url.find("://")` followed by `&url[pos + 3..]`: scan for
the first position where the scheme separator `://` starts and return what
follows it. -/
def dropSchemeSep : List Char → Option (List Char)
  | [] => none
  | x :: xs =>
      if x = ':' ∧ xs.take 2 = ['/', '/'] then some (xs.drop 2)
      else dropSchemeSep xs

/-- Host extraction inside `HostState::is_host_allowed` (host.rs lines
44-59): strip the scheme, then everything from the first slash, then
everything from the first colon; a URL with no scheme separator is used
as-is. -/
def extract_host (url : List Char) : List Char :=
  match dropSchemeSep url with
  | some rest => takeUntilChar ':' (takeUntilChar '/' rest)
  | none => url

/-- Embedding of Rust `str::ends_with` on character lists. -/
def ends_with (l suffix : List Char) : Bool :=
  decide (List.drop (l.length - suffix.length) l = suffix)

/-- Embedding of Rust `allowed.starts_with("*.")`. -/
def starts_with_star_dot : List Char → Bool
  | c1 :: c2 :: _ => decide (c1 = '*') && decide (c2 = '.')
  | _ => false

/-- The per-entry test of `HostState::is_host_allowed` (host.rs lines
61-63): exact equality, or a `*.`-pattern whose remainder (`&allowed[2..]`)
is a suffix of the host. -/
def host_pattern_match (allowed host : List Char) : Bool :=
  allowed == host || (starts_with_star_dot allowed && ends_with host (allowed.drop 2))

/-- Embedding of `HostState::is_host_allowed` (host.rs lines 39-64). -/
def is_host_allowed (allowed_hosts : List (List Char)) (url : List Char) : Bool :=
  if allowed_hosts.isEmpty then false
  else
    let host := extract_host url
    allowed_hosts.any (fun allowed => host_pattern_match allowed host)

theorem dropSchemeSep_cons_ne (x : Char) (xs : List Char) (hx : x ≠ ':') :
    dropSchemeSep (x :: xs) = dropSchemeSep xs := by
  rw [dropSchemeSep, if_neg (fun hc => hx hc.1)]

theorem dropSchemeSep_boundary (scheme rest : List Char) (hs : ∀ c ∈ scheme, c ≠ ':') :
    dropSchemeSep (scheme ++ ':' :: '/' :: '/' :: rest) = some rest := by
  induction scheme with
  | nil => rfl
  | cons x xs ih =>
      rw [List.cons_append, dropSchemeSep_cons_ne x _ (hs x (List.mem_cons_self _ _))]
      exact ih (fun c hc => hs c (List.mem_cons_of_mem _ hc))

theorem takeUntilChar_all_ne (c : Char) (l : List Char) (h : ∀ x ∈ l, x ≠ c) :
    takeUntilChar c l = l := by
  induction l with
  | nil => rfl
  | cons x xs ih =>
      rw [takeUntilChar, if_neg (h x (List.mem_cons_self _ _))]
      rw [ih (fun y hy => h y (List.mem_cons_of_mem _ hy))]

theorem takeUntilChar_boundary (c : Char) (l rest : List Char) (h : ∀ x ∈ l, x ≠ c) :
    takeUntilChar c (l ++ c :: rest) = l := by
  induction l with
  | nil => simp [takeUntilChar]
  | cons x xs ih =>
      rw [List.cons_append, takeUntilChar, if_neg (h x (List.mem_cons_self _ _))]
      rw [ih (fun y hy => h y (List.mem_cons_of_mem _ hy))]

theorem extract_host_of_url (scheme host path : List Char)
    (hs : ∀ c ∈ scheme, c ≠ ':')
    (hh : ∀ c ∈ host, c ≠ ':' ∧ c ≠ '/') :
    extract_host (scheme ++ ':' :: '/' :: '/' :: (host ++ '/' :: path)) = host := by
  rw [extract_host, dropSchemeSep_boundary _ _ hs]
  show takeUntilChar ':' (takeUntilChar '/' (host ++ '/' :: path)) = host
  rw [takeUntilChar_boundary '/' host path (fun x hx => (hh x hx).2)]
  exact takeUntilChar_all_ne ':' host (fun x hx => (hh x hx).1)

theorem starts_with_star_dot_iff (l : List Char) :
    starts_with_star_dot l = true ↔ ∃ suffix, l = '*' :: '.' :: suffix := by
  rcases l with _ | ⟨c1, _ | ⟨c2, rest⟩⟩ <;> simp [starts_with_star_dot]

theorem host_pattern_match_iff (a h : List Char) :
    host_pattern_match a h = true ↔
      a = h ∨ ∃ suffix, a = '*' :: '.' :: suffix ∧ ends_with h suffix = true := by
  rw [host_pattern_match, Bool.or_eq_true, beq_iff_eq, Bool.and_eq_true]
  constructor
  · rintro (rfl | ⟨hstar, hends⟩)
    · exact Or.inl rfl
    · obtain ⟨suffix, rfl⟩ := (starts_with_star_dot_iff a).mp hstar
      exact Or.inr ⟨suffix, rfl, hends⟩
  · rintro (rfl | ⟨suffix, rfl, hsuf⟩)
    · exact Or.inl rfl
    · exact Or.inr ⟨(starts_with_star_dot_iff _).mpr ⟨suffix, rfl⟩, hsuf⟩

/-- Claim C4: for a URL of the form `scheme://host/path` (scheme without a
colon; host without colon or slash), the engine's host allowlist check
accepts exactly when the allowlist contains the host verbatim or contains a
`*.suffix` pattern with the host ending in that suffix, and an empty
allowlist rejects every URL. -/
theorem claim_C4_host_allowlist (allowlist : List (List Char))
    (scheme host path : List Char)
    (hs : ∀ c ∈ scheme, c ≠ ':')
    (hh : ∀ c ∈ host, c ≠ ':' ∧ c ≠ '/') :
    (is_host_allowed allowlist (scheme ++ ':' :: '/' :: '/' :: (host ++ '/' :: path)) = true ↔
      (host ∈ allowlist ∨
        ∃ suffix, ('*' :: '.' :: suffix) ∈ allowlist ∧ ends_with host suffix = true)) ∧
    (∀ url, is_host_allowed [] url = false) := by
  refine ⟨?_, fun url => rfl⟩
  rw [is_host_allowed]
  cases hl : allowlist.isEmpty with
  | true =>
      rw [if_pos rfl]
      rw [List.isEmpty_iff] at hl
      subst hl
      simp
  | false =>
      rw [if_neg (by simp [hl])]
      simp only [extract_host_of_url scheme host path hs hh, List.any_eq_true]
      constructor
      · rintro ⟨a, ha, hmatch⟩
        rcases (host_pattern_match_iff a host).mp hmatch with rfl | ⟨suffix, rfl, hsuf⟩
        · exact Or.inl ha
        · exact Or.inr ⟨suffix, ha, hsuf⟩
      · rintro (hmem | ⟨suffix, hmem, hsuf⟩)
        · exact ⟨host, hmem, (host_pattern_match_iff host host).mpr (Or.inl rfl)⟩
        · exact ⟨'*' :: '.' :: suffix, hmem,
            (host_pattern_match_iff _ host).mpr (Or.inr ⟨suffix, rfl, hsuf⟩)⟩

/-- Witness for claim C4: a concrete allowlist with an exact entry and a
wildcard entry, on a URL matching the exact entry. -/
theorem claim_C4_witness :
    is_host_allowed [chars "api.example.com", '*' :: '.' :: chars "internal.local"]
      (chars "https://api.example.com/path") = true := by
  have h := claim_C4_host_allowlist
    [chars "api.example.com", '*' :: '.' :: chars "internal.local"]
    (chars "https") (chars "api.example.com") (chars "path") (by decide) (by decide)
  have hurl : chars "https://api.example.com/path" =
      chars "https" ++ ':' :: '/' :: '/' :: (chars "api.example.com" ++ '/' :: chars "path") := by
    decide
  rw [hurl]
  exact h.1.mpr (Or.inl (by decide))

/-! ## Store path normalization (sync-fs/src/store/sync_store.rs)

Paths are `List Char`; Rust `Path` operations (`components`, `file_name`,
`set_file_name`, `join`) are modelled at the component level, Unix rules:
splitting on `/` drops empty segments, a `.` segment is kept only in
leading position, `..` is a parent-dir component; root and drive-prefix
components cannot arise in a string whose leading slashes were stripped but
are carried in the component type because the source matches on them. -/

/-- Embedding of the store's error type `SyncStoreError`, restricted to the
variants path normalization produces. -/
inductive SyncStoreError where
  | invalidName (name : List Char)
  | invalidPath (path : List Char)
deriving DecidableEq

/-- Rust `str::trim_start_matches('/')`. -/
def dropLeadingSlashes : List Char → List Char
  | [] => []
  | c :: rest => if c = '/' then dropLeadingSlashes rest else c :: rest

/-- Embedding of Rust `std::path::Component` (Unix: `Prefix` is spelled
`drive` and never produced by the parser here). -/
inductive PathComponent where
  | curDir
  | parentDir
  | rootDir
  | drive
  | normal (s : List Char)
deriving DecidableEq

/-- Split a character list on `/` (accumulator form). -/
def splitSegsAux (cur : List Char) : List Char → List (List Char)
  | [] => [cur]
  | c :: rest =>
      if c = '/' then cur :: splitSegsAux [] rest else splitSegsAux (cur ++ [c]) rest

/-- All `/`-separated segments of a path string. -/
def splitSegs (l : List Char) : List (List Char) := splitSegsAux [] l

/-- Classification of one non-empty segment. -/
def segToComponent (seg : List Char) : PathComponent :=
  if seg = ['.'] then PathComponent.curDir
  else if seg = ['.', '.'] then PathComponent.parentDir
  else PathComponent.normal seg

/-- Rust `Path::components` for a relative (slash-stripped) path: empty
segments are dropped, and a `.` segment is dropped except in leading
position. -/
def relComponents (trimmed : List Char) : List PathComponent :=
  match (splitSegs trimmed).filter (fun s => !s.isEmpty) with
  | [] => []
  | first :: rest =>
      segToComponent first :: (rest.filter (fun s => decide (s ≠ ['.']))).map segToComponent

/-- Embedding of `normalize_relative_path` (sync_store.rs lines 220-237):
strip leading slashes, require a non-empty remainder, and reject any
parent-dir, root, or prefix component. -/
def normalize_relative_path (path : List Char) : Except SyncStoreError (List Char) :=
  let trimmed := dropLeadingSlashes path
  if trimmed.isEmpty then Except.error (SyncStoreError.invalidName path)
  else if (relComponents trimmed).any (fun c =>
      decide (c = PathComponent.parentDir) || decide (c = PathComponent.rootDir) ||
        decide (c = PathComponent.drive)) then
    Except.error (SyncStoreError.invalidPath path)
  else Except.ok trimmed

/-- The characters of the `.sync` suffix. -/
def dotSync : List Char := ['.', 's', 'y', 'n', 'c']

/-- Embedding of `ensure_sync_extension` (sync_store.rs lines 239-245). -/
def ensure_sync_extension (name : List Char) : List Char :=
  if ends_with name dotSync then name else name ++ dotSync

/-- Rust `Path::file_name` at the component level: the last component when
it is a normal one. -/
def file_name_of (comps : List PathComponent) : Option (List Char) :=
  match comps.getLast? with
  | some (PathComponent.normal s) => some s
  | _ => none

/-- Embedding of `SyncStore::sync_path_for` (sync_store.rs lines 141-150):
normalize the name, take its file-name component, replace it by the
`.sync`-suffixed name (`set_file_name` = pop the last component, push the
new one), and join onto the base directory. -/
def sync_path_for (base : List PathComponent) (name : List Char) :
    Except SyncStoreError (List PathComponent) :=
  match normalize_relative_path name with
  | Except.error e => Except.error e
  | Except.ok rel =>
    let comps := relComponents rel
    match file_name_of comps with
    | none => Except.error (SyncStoreError.invalidName name)
    | some fname =>
        Except.ok
          (base ++ (comps.dropLast ++ [PathComponent.normal (ensure_sync_extension fname)]))

theorem ends_with_append_self (n s : List Char) : ends_with (n ++ s) s = true := by
  rw [ends_with, decide_eq_true_eq, List.length_append, Nat.add_sub_cancel]
  exact List.drop_left n s

theorem ensure_sync_extension_ends (n : List Char) :
    ends_with (ensure_sync_extension n) dotSync = true := by
  rw [ensure_sync_extension]
  split
  · rename_i hx
    exact hx
  · exact ends_with_append_self n dotSync

theorem normalize_ok_facts (path rel : List Char)
    (h : normalize_relative_path path = Except.ok rel) :
    rel = dropLeadingSlashes path ∧
    (relComponents rel).any (fun c =>
      decide (c = PathComponent.parentDir) || decide (c = PathComponent.rootDir) ||
        decide (c = PathComponent.drive)) = false := by
  rw [normalize_relative_path] at h
  split at h
  · simp at h
  · split at h
    · simp at h
    · rename_i h1 h2
      injection h with h3
      subst h3
      exact ⟨rfl, by rwa [← Bool.not_eq_true]⟩

theorem normalize_slash (name rel : List Char)
    (h : normalize_relative_path name = Except.ok rel) :
    normalize_relative_path ('/' :: name) = Except.ok rel := by
  rw [normalize_relative_path] at h ⊢
  rw [show dropLeadingSlashes ('/' :: name) = dropLeadingSlashes name from by
    rw [dropLeadingSlashes, if_pos rfl]]
  split at h
  · simp at h
  · split at h
    · simp at h
    · rename_i h1 h2
      rw [if_neg h1, if_neg h2]
      exact h

theorem sync_path_for_slash (base : List PathComponent) (name : List Char)
    (p : List PathComponent) (h : sync_path_for base name = Except.ok p) :
    sync_path_for base ('/' :: name) = Except.ok p := by
  rw [sync_path_for] at h ⊢
  cases hn : normalize_relative_path name with
  | error e => rw [hn] at h; simp at h
  | ok rel =>
      rw [hn] at h
      rw [normalize_slash name rel hn]
      dsimp only at h ⊢
      cases hf : file_name_of (relComponents rel) with
      | none => rw [hf] at h; simp at h
      | some fname => rw [hf] at h; exact h

/-- Claim C9 (amended): when path resolution succeeds, the resolved path is
the base directory followed by a non-empty relative component list that
contains no parent-dir, root, or drive component (so it lies strictly
inside the base directory) and whose last component is a normal name ending
in `.sync`; a name that is all slashes fails, a name with a parent-dir
component fails, and — contrary to the claim as stated — an absolute name
is not rejected: its leading slashes are stripped and resolution yields the
same path. -/
theorem claim_C9_path_resolution (base : List PathComponent) (name : List Char)
    (p : List PathComponent) (h : sync_path_for base name = Except.ok p) :
    (∃ rel, p = base ++ rel ∧ rel ≠ [] ∧
      (∀ c ∈ rel, c ≠ PathComponent.parentDir ∧ c ≠ PathComponent.rootDir ∧
        c ≠ PathComponent.drive) ∧
      ∃ s, rel.getLast? = some (PathComponent.normal s) ∧ ends_with s dotSync = true) ∧
    sync_path_for base ('/' :: name) = Except.ok p ∧
    (∀ n : List Char, dropLeadingSlashes n = [] →
      normalize_relative_path n = Except.error (SyncStoreError.invalidName n)) ∧
    (∀ n : List Char, PathComponent.parentDir ∈ relComponents (dropLeadingSlashes n) →
      normalize_relative_path n = Except.error (SyncStoreError.invalidPath n)) := by
  refine ⟨?_, sync_path_for_slash base name p h, ?_, ?_⟩
  · rw [sync_path_for] at h
    cases hn : normalize_relative_path name with
    | error e => rw [hn] at h; simp at h
    | ok rel =>
        rw [hn] at h
        dsimp only at h
        cases hf : file_name_of (relComponents rel) with
        | none => rw [hf] at h; simp at h
        | some fname =>
            rw [hf] at h
            injection h with h1
            obtain ⟨-, hall⟩ := normalize_ok_facts name rel hn
            rw [List.any_eq_false] at hall
            refine ⟨(relComponents rel).dropLast ++
              [PathComponent.normal (ensure_sync_extension fname)], h1.symm, by simp, ?_, ?_⟩
            · intro c hc
              rcases List.mem_append.mp hc with hc | hc
              · have hx := hall c (List.dropLast_subset _ hc)
                simp only [Bool.or_eq_true, decide_eq_true_eq, not_or] at hx
                exact ⟨hx.1.1, hx.1.2, hx.2⟩
              · rw [List.mem_singleton] at hc
                subst hc
                exact ⟨by simp, by simp, by simp⟩
            · exact ⟨ensure_sync_extension fname, List.getLast?_concat _,
                ensure_sync_extension_ends fname⟩
  · intro n hn
    rw [normalize_relative_path]
    rw [if_pos (by rw [hn]; rfl)]
  · intro n hmem
    rw [normalize_relative_path]
    have hne : (dropLeadingSlashes n).isEmpty = false := by
      cases hd : dropLeadingSlashes n with
      | nil => rw [hd] at hmem; simp [relComponents, splitSegs, splitSegsAux] at hmem
      | cons x xs => rfl
    rw [if_neg (by simp [hne])]
    rw [if_pos (by
      rw [List.any_eq_true]
      exact ⟨PathComponent.parentDir, hmem, by simp⟩)]

/-- Counterexample to claim C9 as stated: an absolute name is accepted
(with its leading slash stripped), not rejected with an error. -/
theorem claim_C9_counterexample :
    normalize_relative_path (chars "/etc/passwd") = Except.ok (chars "etc/passwd") ∧
    sync_path_for [PathComponent.normal (chars "store")] (chars "/etc/passwd") =
      Except.ok [PathComponent.normal (chars "store"), PathComponent.normal (chars "etc"),
        PathComponent.normal (chars "passwd.sync")] := by
  exact ⟨rfl, rfl⟩

/-- Witness for claim C9 (amended) at a concrete store layout. -/
theorem claim_C9_witness :
    sync_path_for [PathComponent.normal (chars "base")] ('/' :: chars "docs/hello.txt") =
      Except.ok [PathComponent.normal (chars "base"), PathComponent.normal (chars "docs"),
        PathComponent.normal (chars "hello.txt.sync")] := by
  have h := claim_C9_path_resolution [PathComponent.normal (chars "base")]
    (chars "docs/hello.txt")
    [PathComponent.normal (chars "base"), PathComponent.normal (chars "docs"),
      PathComponent.normal (chars "hello.txt.sync")] (by rfl)
  exact h.2.1

/-! ## JSON canonicalization (sync-format/src/verification.rs)

`canonicalize_json` (verification.rs lines 396-414) rebuilds every object
through a `BTreeMap<String, Value>`, so keys come back in ascending byte
order (for UTF-8, ascending code-point order — Lean's `String` order), and
recurses into arrays and object values; primitives are cloned. Numbers play
no role in canonicalization and are carried as integers. -/

/-- Embedding of `serde_json::Value`. -/
inductive Json where
  | null
  | bool (b : Bool)
  | num (n : Int)
  | str (s : String)
  | arr (items : List Json)
  | obj (fields : List (String × Json))

/-- One `BTreeMap::insert` step on an association list kept in ascending
key order: place the binding at its position, replacing an existing binding
with an equal key. -/
def insertField (k : String) (v : Json) : List (String × Json) → List (String × Json)
  | [] => [(k, v)]
  | (k2, v2) :: rest =>
      if k < k2 then (k, v) :: (k2, v2) :: rest
      else if k = k2 then (k, v) :: rest
      else (k2, v2) :: insertField k v rest

/-- Folding every field into the `BTreeMap` (verification.rs lines 399-402)
and reading the map back in ascending key order. -/
def sortFields (fields : List (String × Json)) : List (String × Json) :=
  fields.foldl (fun acc p => insertField p.1 p.2 acc) []

mutual

/-- Embedding of `canonicalize_json` (verification.rs lines 396-414). -/
def canonicalize_json : Json → Json
  | Json.null => Json.null
  | Json.bool b => Json.bool b
  | Json.num n => Json.num n
  | Json.str s => Json.str s
  | Json.arr items => Json.arr (canonList items)
  | Json.obj fields => Json.obj (sortFields (canonFields fields))

/-- Canonicalization mapped over array elements. -/
def canonList : List Json → List Json
  | [] => []
  | x :: xs => canonicalize_json x :: canonList xs

/-- Canonicalization mapped over object field values. -/
def canonFields : List (String × Json) → List (String × Json)
  | [] => []
  | p :: rest => (p.1, canonicalize_json p.2) :: canonFields rest

end

/-- Every key of the list is greater than `k`. -/
def keyLtAll (k : String) (l : List (String × Json)) : Bool :=
  l.all (fun q => decide (k < q.1))

/-- Keys in strictly ascending order. -/
def keysSorted : List (String × Json) → Bool
  | [] => true
  | p :: rest => keyLtAll p.1 rest && keysSorted rest

mutual

/-- Every object anywhere in the value has its keys in strictly ascending
order. -/
def objsSorted : Json → Bool
  | Json.arr items => listObjsSorted items
  | Json.obj fields => keysSorted fields && fieldsObjsSorted fields
  | _ => true

/-- The array-elements companion of `objsSorted`. -/
def listObjsSorted : List Json → Bool
  | [] => true
  | x :: xs => objsSorted x && listObjsSorted xs

/-- The field-values companion of `objsSorted`. -/
def fieldsObjsSorted : List (String × Json) → Bool
  | [] => true
  | p :: rest => objsSorted p.2 && fieldsObjsSorted rest

end

/-- Pairwise distinct keys (what `serde_json::Map` guarantees). -/
def distinctKeys : List (String × Json) → Bool
  | [] => true
  | p :: rest => rest.all (fun q => decide (q.1 ≠ p.1)) && distinctKeys rest

mutual

/-- Well-formed JSON: every object's keys are distinct, at every depth. -/
def jsonWF : Json → Bool
  | Json.arr items => listWF items
  | Json.obj fields => distinctKeys fields && fieldsWF fields
  | _ => true

/-- The array-elements companion of `jsonWF`. -/
def listWF : List Json → Bool
  | [] => true
  | x :: xs => jsonWF x && listWF xs

/-- The field-values companion of `jsonWF`. -/
def fieldsWF : List (String × Json) → Bool
  | [] => true
  | p :: rest => jsonWF p.2 && fieldsWF rest

end

/-- Two JSON values are equal up to permuting the fields of nested objects:
the congruence generated by reordering object fields while keeping each
key's value (itself up to the same relation). -/
inductive PermEq : Json → Json → Prop where
  | null : PermEq Json.null Json.null
  | bool (b : Bool) : PermEq (Json.bool b) (Json.bool b)
  | num (n : Int) : PermEq (Json.num n) (Json.num n)
  | str (s : String) : PermEq (Json.str s) (Json.str s)
  | arr (xs ys : List Json) : List.Forall₂ PermEq xs ys →
      PermEq (Json.arr xs) (Json.arr ys)
  | obj (xs ys zs : List (String × Json)) :
      xs.map Prod.fst = ys.map Prod.fst →
      List.Forall₂ PermEq (xs.map Prod.snd) (ys.map Prod.snd) →
      ys.Perm zs →
      PermEq (Json.obj xs) (Json.obj zs)

theorem mem_insertField (k : String) (v : Json) (l : List (String × Json))
    (x : String × Json) (hx : x ∈ insertField k v l) : x = (k, v) ∨ x ∈ l := by
  induction l with
  | nil => simpa [insertField] using hx
  | cons p rest ih =>
      obtain ⟨k2, v2⟩ := p
      rw [insertField] at hx
      split at hx
      · exact (List.mem_cons.mp hx).elim Or.inl Or.inr
      · split at hx
        · rcases List.mem_cons.mp hx with h | h
          · exact Or.inl h
          · exact Or.inr (List.mem_cons_of_mem _ h)
        · rcases List.mem_cons.mp hx with h | h
          · exact Or.inr (by rw [h]; exact List.mem_cons_self _ _)
          · rcases ih h with h2 | h2
            · exact Or.inl h2
            · exact Or.inr (List.mem_cons_of_mem _ h2)

theorem keyLtAll_iff (k : String) (l : List (String × Json)) :
    keyLtAll k l = true ↔ ∀ q ∈ l, k < q.1 := by
  simp [keyLtAll, List.all_eq_true]

theorem insertField_sorted (k : String) (v : Json) (l : List (String × Json))
    (h : keysSorted l = true) : keysSorted (insertField k v l) = true := by
  induction l with
  | nil => simp [insertField, keysSorted, keyLtAll]
  | cons p rest ih =>
      obtain ⟨k2, v2⟩ := p
      rw [keysSorted, Bool.and_eq_true] at h
      rw [insertField]
      split
      · rename_i hlt
        rw [keysSorted, Bool.and_eq_true]
        refine ⟨?_, by rw [keysSorted, Bool.and_eq_true]; exact ⟨h.1, h.2⟩⟩
        rw [keyLtAll_iff]
        intro q hq
        rcases List.mem_cons.mp hq with rfl | hq
        · exact hlt
        · exact lt_trans hlt ((keyLtAll_iff _ _).mp h.1 q hq)
      · rename_i hnlt
        split
        · rename_i heq
          subst heq
          rw [keysSorted, Bool.and_eq_true]
          exact ⟨h.1, h.2⟩
        · rename_i heq
          rw [keysSorted, Bool.and_eq_true]
          refine ⟨?_, ih h.2⟩
          rw [keyLtAll_iff]
          intro q hq
          rcases mem_insertField k v rest q hq with rfl | hq
          · exact lt_of_le_of_ne (not_lt.mp hnlt) (fun hk => heq hk.symm)
          · exact (keyLtAll_iff _ _).mp h.1 q hq

theorem foldl_insertField_sorted (l : List (String × Json)) (acc : List (String × Json))
    (hacc : keysSorted acc = true) :
    keysSorted (l.foldl (fun acc p => insertField p.1 p.2 acc) acc) = true := by
  induction l generalizing acc with
  | nil => simpa using hacc
  | cons p rest ih => exact ih _ (insertField_sorted p.1 p.2 acc hacc)

theorem sortFields_sorted (l : List (String × Json)) : keysSorted (sortFields l) = true :=
  foldl_insertField_sorted l [] rfl

theorem insertField_perm (k : String) (v : Json) (l : List (String × Json))
    (h : ∀ q ∈ l, q.1 ≠ k) : (insertField k v l).Perm ((k, v) :: l) := by
  induction l with
  | nil => exact List.Perm.refl _
  | cons p rest ih =>
      obtain ⟨k2, v2⟩ := p
      rw [insertField]
      split
      · exact List.Perm.refl _
      · split
        · rename_i heq
          exact absurd heq.symm (h (k2, v2) (List.mem_cons_self _ _))
        · have hp := ih (fun q hq => h q (List.mem_cons_of_mem _ hq))
          exact (List.Perm.cons _ hp).trans (List.Perm.swap _ _ _)

theorem mem_foldl_insertField (l acc : List (String × Json)) (q : String × Json)
    (hq : q ∈ l.foldl (fun acc p => insertField p.1 p.2 acc) acc) : q ∈ acc ∨ q ∈ l := by
  induction l generalizing acc with
  | nil => exact Or.inl (by simpa using hq)
  | cons p rest ih =>
      rw [List.foldl_cons] at hq
      rcases ih (insertField p.1 p.2 acc) hq with h | h
      · rcases mem_insertField _ _ _ q h with h2 | h2
        · exact Or.inr (by rw [h2]; exact List.mem_cons_self _ _)
        · exact Or.inl h2
      · exact Or.inr (List.mem_cons_of_mem _ h)

theorem mem_sortFields (l : List (String × Json)) (q : String × Json)
    (hq : q ∈ sortFields l) : q ∈ l := by
  rcases mem_foldl_insertField l [] q hq with h | h
  · cases h
  · exact h

theorem foldl_insertField_perm : ∀ (l acc : List (String × Json)),
    (∀ p ∈ l, ∀ q ∈ acc, q.1 ≠ p.1) → distinctKeys l = true →
    (l.foldl (fun acc p => insertField p.1 p.2 acc) acc).Perm (acc ++ l) := by
  intro l
  induction l with
  | nil => intro acc _ _; simp
  | cons p rest ih =>
      intro acc hdisj hl
      obtain ⟨pk, pv⟩ := p
      rw [distinctKeys, Bool.and_eq_true, List.all_eq_true] at hl
      rw [List.foldl_cons]
      have hins : (insertField pk pv acc).Perm ((pk, pv) :: acc) :=
        insertField_perm _ _ _ (fun q hq => hdisj (pk, pv) (List.mem_cons_self _ _) q hq)
      have hdisj2 : ∀ x ∈ rest, ∀ q ∈ insertField pk pv acc, q.1 ≠ x.1 := by
        intro x hx q hq
        rcases mem_insertField _ _ _ q hq with rfl | hq2
        · intro hqe
          have hne := hl.1 x hx
          rw [decide_eq_true_eq] at hne
          exact hne hqe.symm
        · exact hdisj x (List.mem_cons_of_mem _ hx) q hq2
      refine (ih (insertField pk pv acc) hdisj2 hl.2).trans ?_
      refine (hins.append_right rest).trans ?_
      rw [List.cons_append]
      exact List.perm_middle.symm

theorem sortFields_perm (l : List (String × Json)) (hl : distinctKeys l = true) :
    (sortFields l).Perm l := by
  have h := foldl_insertField_perm l [] (by intro p _ q hq; cases hq) hl
  simpa [sortFields] using h

theorem keysSorted_pairwise (l : List (String × Json)) :
    keysSorted l = true ↔ l.Pairwise (fun p q => p.1 < q.1) := by
  induction l with
  | nil => simp [keysSorted]
  | cons p rest ih =>
      rw [keysSorted, Bool.and_eq_true, keyLtAll_iff, List.pairwise_cons, ih]

theorem sorted_perm_unique (l1 l2 : List (String × Json)) (h1 : keysSorted l1 = true)
    (h2 : keysSorted l2 = true) (hp : l1.Perm l2) : l1 = l2 := by
  haveI : IsAntisymm (String × Json) (fun p q => p.1 < q.1) :=
    ⟨fun a b hab hba => absurd (lt_trans hab hba) (lt_irrefl _)⟩
  exact List.eq_of_perm_of_sorted hp ((keysSorted_pairwise l1).mp h1)
    ((keysSorted_pairwise l2).mp h2)

theorem distinctKeys_iff (l : List (String × Json)) :
    distinctKeys l = true ↔ (l.map Prod.fst).Nodup := by
  induction l with
  | nil => simp [distinctKeys]
  | cons p rest ih =>
      rw [distinctKeys, Bool.and_eq_true, List.all_eq_true, List.map_cons, List.nodup_cons, ih]
      constructor
      · rintro ⟨h1, h2⟩
        refine ⟨fun hmem => ?_, h2⟩
        obtain ⟨q, hq, hqe⟩ := List.mem_map.mp hmem
        have := h1 q hq
        rw [decide_eq_true_eq] at this
        exact this hqe
      · rintro ⟨h1, h2⟩
        refine ⟨fun q hq => ?_, h2⟩
        rw [decide_eq_true_eq]
        intro hqe
        exact h1 (List.mem_map.mpr ⟨q, hq, hqe⟩)

theorem distinctKeys_of_perm (l l' : List (String × Json)) (hp : l.Perm l')
    (hl : distinctKeys l = true) : distinctKeys l' = true := by
  rw [distinctKeys_iff] at hl ⊢
  exact ((hp.map Prod.fst).nodup_iff).mp hl

theorem canonFields_eq_map (l : List (String × Json)) :
    canonFields l = l.map (fun p => (p.1, canonicalize_json p.2)) := by
  induction l with
  | nil => simp [canonFields]
  | cons p rest ih => simp [canonFields, ih]

theorem canonList_eq_map (l : List Json) : canonList l = l.map canonicalize_json := by
  induction l with
  | nil => simp [canonList]
  | cons x xs ih => simp [canonList, ih]

theorem listObjsSorted_iff (l : List Json) :
    listObjsSorted l = true ↔ ∀ x ∈ l, objsSorted x = true := by
  induction l with
  | nil => simp [listObjsSorted]
  | cons x xs ih => simp [listObjsSorted, ih]

theorem fieldsObjsSorted_iff (l : List (String × Json)) :
    fieldsObjsSorted l = true ↔ ∀ p ∈ l, objsSorted p.2 = true := by
  induction l with
  | nil => simp [fieldsObjsSorted]
  | cons p rest ih => simp [fieldsObjsSorted, ih]

theorem listWF_iff (l : List Json) : listWF l = true ↔ ∀ x ∈ l, jsonWF x = true := by
  induction l with
  | nil => simp [listWF]
  | cons x xs ih => simp [listWF, ih]

theorem fieldsWF_iff (l : List (String × Json)) :
    fieldsWF l = true ↔ ∀ p ∈ l, jsonWF p.2 = true := by
  induction l with
  | nil => simp [fieldsWF]
  | cons p rest ih => simp [fieldsWF, ih]

theorem canon_sorted_aux : ∀ (n : Nat) (v : Json), sizeOf v ≤ n →
    objsSorted (canonicalize_json v) = true := by
  intro n
  induction n with
  | zero => intro v hv; exfalso; cases v <;> simp at hv
  | succ n ih =>
      intro v hv
      cases v with
      | null => simp [canonicalize_json, objsSorted]
      | bool b => simp [canonicalize_json, objsSorted]
      | num m => simp [canonicalize_json, objsSorted]
      | str s => simp [canonicalize_json, objsSorted]
      | arr items =>
          simp only [canonicalize_json, objsSorted]
          rw [listObjsSorted_iff]
          intro x hx
          rw [canonList_eq_map] at hx
          obtain ⟨y, hy, rfl⟩ := List.mem_map.mp hx
          have h1 : sizeOf y < sizeOf items := List.sizeOf_lt_of_mem hy
          have h2 : sizeOf (Json.arr items) = 1 + sizeOf items := by simp
          exact ih y (by omega)
      | obj fields =>
          simp only [canonicalize_json, objsSorted, Bool.and_eq_true]
          refine ⟨sortFields_sorted _, ?_⟩
          rw [fieldsObjsSorted_iff]
          intro p hp
          have hmem := mem_sortFields _ _ hp
          rw [canonFields_eq_map] at hmem
          obtain ⟨q, hq, rfl⟩ := List.mem_map.mp hmem
          obtain ⟨qa, qb⟩ := q
          have h1 : sizeOf (qa, qb) < sizeOf fields := List.sizeOf_lt_of_mem hq
          have h2 : sizeOf (Json.obj fields) = 1 + sizeOf fields := by simp
          have h3 : sizeOf (qa, qb) = 1 + sizeOf qa + sizeOf qb := by simp
          exact ih qb (by omega)

theorem canon_permEq_aux : ∀ (n : Nat) (v v' : Json), sizeOf v ≤ n → jsonWF v = true →
    PermEq v v' → canonicalize_json v = canonicalize_json v' := by
  intro n
  induction n with
  | zero => intro v v' hv _ _; exfalso; cases v <;> simp at hv
  | succ n ih =>
      intro v v' hv hwf hperm
      cases hperm with
      | null => rfl
      | bool b => rfl
      | num m => rfl
      | str s => rfl
      | arr xs ys hfa =>
          simp only [canonicalize_json, Json.arr.injEq]
          have hsz : ∀ x ∈ xs, sizeOf x ≤ n := by
            intro x hx
            have h1 : sizeOf x < sizeOf xs := List.sizeOf_lt_of_mem hx
            have h2 : sizeOf (Json.arr xs) = 1 + sizeOf xs := by simp
            omega
          have hwfl : ∀ x ∈ xs, jsonWF x = true := by
            rw [show jsonWF (Json.arr xs) = listWF xs from by simp [jsonWF]] at hwf
            exact (listWF_iff xs).mp hwf
          have inner : ∀ (as bs : List Json), List.Forall₂ PermEq as bs →
              (∀ x ∈ as, sizeOf x ≤ n) → (∀ x ∈ as, jsonWF x = true) →
              canonList as = canonList bs := by
            intro as bs hfa2
            induction hfa2 with
            | nil => intro _ _; rfl
            | cons hx hrest ihl =>
                rename_i a b as2 bs2
                intro hsz2 hwf2
                simp only [canonList, List.cons.injEq]
                exact ⟨ih a b (hsz2 a (List.mem_cons_self _ _))
                    (hwf2 a (List.mem_cons_self _ _)) hx,
                  ihl (fun x hx2 => hsz2 x (List.mem_cons_of_mem _ hx2))
                    (fun x hx2 => hwf2 x (List.mem_cons_of_mem _ hx2))⟩
          exact inner xs ys hfa hsz hwfl
      | obj xs ys zs hk hv2 hyz =>
          simp only [canonicalize_json, Json.obj.injEq]
          have hszf : ∀ p ∈ xs, sizeOf p.2 ≤ n := by
            intro p hp
            obtain ⟨pa, pb⟩ := p
            have h1 : sizeOf (pa, pb) < sizeOf xs := List.sizeOf_lt_of_mem hp
            have h2 : sizeOf (Json.obj xs) = 1 + sizeOf xs := by simp
            have h3 : sizeOf (pa, pb) = 1 + sizeOf pa + sizeOf pb := by simp
            simp only []
            omega
          have hwfx : distinctKeys xs = true ∧ fieldsWF xs = true := by
            rw [show jsonWF (Json.obj xs) = (distinctKeys xs && fieldsWF xs) from by
              simp [jsonWF], Bool.and_eq_true] at hwf
            exact hwf
          have hwff : ∀ p ∈ xs, jsonWF p.2 = true := (fieldsWF_iff xs).mp hwfx.2
          have inner : ∀ (as bs : List (String × Json)),
              as.map Prod.fst = bs.map Prod.fst →
              List.Forall₂ PermEq (as.map Prod.snd) (bs.map Prod.snd) →
              (∀ p ∈ as, sizeOf p.2 ≤ n) → (∀ p ∈ as, jsonWF p.2 = true) →
              canonFields as = canonFields bs := by
            intro as
            induction as with
            | nil =>
                intro bs hkk _ _ _
                cases bs with
                | nil => rfl
                | cons q qs => simp at hkk
            | cons p ps ihp =>
                intro bs hkk hvv hsz2 hwf2
                cases bs with
                | nil => simp at hkk
                | cons q qs =>
                    rw [List.map_cons, List.map_cons, List.cons.injEq] at hkk
                    rw [List.map_cons, List.map_cons] at hvv
                    cases hvv with
                    | cons hv1 hvrest =>
                        simp only [canonFields, List.cons.injEq]
                        refine ⟨?_, ihp qs hkk.2 hvrest
                          (fun x hx2 => hsz2 x (List.mem_cons_of_mem _ hx2))
                          (fun x hx2 => hwf2 x (List.mem_cons_of_mem _ hx2))⟩
                        rw [Prod.ext_iff]
                        exact ⟨hkk.1, ih p.2 q.2 (hsz2 p (List.mem_cons_self _ _))
                          (hwf2 p (List.mem_cons_self _ _)) hv1⟩
          have hxy : canonFields xs = canonFields ys := inner xs ys hk hv2 hszf hwff
          have hyz2 : (canonFields ys).Perm (canonFields zs) := by
            rw [canonFields_eq_map, canonFields_eq_map]
            exact hyz.map _
          have hdkx : distinctKeys (canonFields xs) = true := by
            rw [distinctKeys_iff, canonFields_eq_map, List.map_map]
            rw [distinctKeys_iff] at hwfx
            simpa [Function.comp] using hwfx.1
          have hdkz : distinctKeys (canonFields zs) = true :=
            distinctKeys_of_perm _ _ hyz2 (hxy ▸ hdkx)
          apply sorted_perm_unique _ _ (sortFields_sorted _) (sortFields_sorted _)
          refine (sortFields_perm _ hdkx).trans ?_
          rw [hxy]
          exact hyz2.trans (sortFields_perm _ hdkz).symm

/-- Claim C8: canonicalization sorts every object's keys ascending at every
depth, maps arrays elementwise preserving order, leaves primitives
unchanged, and is invariant under permuting the fields of nested objects
(for well-formed values, i.e. objects with distinct keys) — hence key order
cannot affect anything computed from the canonical form, such as the
manifest hash or the signature verification outcome. -/
theorem claim_C8_canonicalize (v v' : Json) (hwf : jsonWF v = true) (hperm : PermEq v v') :
    (∀ u : Json, objsSorted (canonicalize_json u) = true) ∧
    (∀ items : List Json,
      canonicalize_json (Json.arr items) = Json.arr (items.map canonicalize_json)) ∧
    (canonicalize_json Json.null = Json.null ∧
      (∀ b, canonicalize_json (Json.bool b) = Json.bool b) ∧
      (∀ n, canonicalize_json (Json.num n) = Json.num n) ∧
      (∀ s, canonicalize_json (Json.str s) = Json.str s)) ∧
    canonicalize_json v = canonicalize_json v' := by
  refine ⟨fun u => canon_sorted_aux (sizeOf u) u le_rfl, ?_, ⟨rfl, fun b => rfl, fun n => rfl,
    fun s => rfl⟩, canon_permEq_aux (sizeOf v) v v' le_rfl hwf hperm⟩
  intro items
  simp only [canonicalize_json, canonList_eq_map]

/-- Witness for claim C8: a two-field object with its fields swapped
canonicalizes to the same value. -/
theorem claim_C8_witness :
    canonicalize_json (Json.obj [("b", Json.num 1), ("a", Json.null)]) =
      canonicalize_json (Json.obj [("a", Json.null), ("b", Json.num 1)]) := by
  have hwf : jsonWF (Json.obj [("b", Json.num 1), ("a", Json.null)]) = true := by
    simp [jsonWF, distinctKeys, fieldsWF]
  have hperm : PermEq (Json.obj [("b", Json.num 1), ("a", Json.null)])
      (Json.obj [("a", Json.null), ("b", Json.num 1)]) :=
    PermEq.obj [("b", Json.num 1), ("a", Json.null)] [("b", Json.num 1), ("a", Json.null)]
      [("a", Json.null), ("b", Json.num 1)] rfl
      (List.Forall₂.cons (PermEq.num 1) (List.Forall₂.cons PermEq.null List.Forall₂.nil))
      (List.Perm.swap ("a", Json.null) ("b", Json.num 1) [])
  exact (claim_C8_canonicalize _ _ hwf hperm).2.2.2

/-! ## Claims C1 and C2: effective permissions and consumer containment -/

theorem mem_intersect_allowlist (x : String) (h m : List String) :
    x ∈ intersect_allowlist h m ↔ x ∈ h ∧ x ∈ m := by
  unfold intersect_allowlist
  split
  · rename_i hc
    rw [Bool.or_eq_true, List.isEmpty_iff, List.isEmpty_iff] at hc
    rcases hc with hc | hc <;> subst hc <;> simp
  · simp [List.mem_filter, List.elem_iff]

/-- Claim C1: for every session, the effective permissions intersect the
session's host and env allowlists with the manifest's (a name is effective
iff it is in both), and every other permission flag is taken unchanged from
the session. -/
theorem claim_C1_effective_permissions_intersection (s : GuestSession) :
    (∀ x, x ∈ s.effective_permissions.allowed_hosts ↔
        x ∈ s.permissions.allowed_hosts ∧ x ∈ s.manifest_permissions.allow_hosts) ∧
    (∀ x, x ∈ s.effective_permissions.allowed_env ↔
        x ∈ s.permissions.allowed_env ∧ x ∈ s.manifest_permissions.allow_env) ∧
    s.effective_permissions.can_read_payload = s.permissions.can_read_payload ∧
    s.effective_permissions.can_read_context = s.permissions.can_read_context ∧
    s.effective_permissions.can_write_payload = s.permissions.can_write_payload ∧
    s.effective_permissions.can_write_context = s.permissions.can_write_context ∧
    s.effective_permissions.can_execute_wasm = s.permissions.can_execute_wasm := by
  refine ⟨fun x => ?_, fun x => ?_, rfl, rfl, rfl, rfl, rfl⟩ <;>
    simp [GuestSession.effective_permissions, mem_intersect_allowlist]

/-- Claim C2: a consumer session is denied (with a PermissionDenied error)
every action except the two reads, regardless of granted flags, and the
reads succeed exactly when the corresponding effective read flag is set. -/
theorem claim_C2_consumer_containment (s : GuestSession)
    (h : s.role = GuestContextRole.consumer) :
    (∀ a, (a = GuestAction.writePayload ∨ a = GuestAction.updatePayload ∨
           a = GuestAction.writeContext ∨ a = GuestAction.executeWasm) →
        s.verify_permissions a =
          Except.error (GuestError.mk GuestErrorCode.permissionDenied
            "Owner context required")) ∧
    (s.verify_permissions GuestAction.readPayload = Except.ok () ↔
        s.effective_permissions.can_read_payload = true) ∧
    (s.verify_permissions GuestAction.readContext = Except.ok () ↔
        s.effective_permissions.can_read_context = true) := by
  refine ⟨fun a ha => ?_, ?_, ?_⟩
  · rcases ha with ha | ha | ha | ha <;> subst ha <;>
      simp [GuestSession.verify_permissions, h]
  · simp only [GuestSession.verify_permissions, h, if_pos]
    cases hf : s.effective_permissions.can_read_payload <;> simp [hf]
  · simp only [GuestSession.verify_permissions, h, if_pos]
    cases hf : s.effective_permissions.can_read_context <;> simp [hf]

/-- Concrete consumer session used to witness claim C2: every write flag is
granted, yet writes are still denied. -/
def sessionC2 : GuestSession :=
  { sync_path := "a.sync"
    mode := GuestMode.headless
    role := GuestContextRole.consumer
    permissions :=
      { can_read_payload := true
        can_read_context := false
        can_write_payload := true
        can_write_context := true
        can_execute_wasm := true
        allowed_hosts := ["example.com"]
        allowed_env := []
      }
    manifest_permissions := { allow_hosts := ["example.com"], allow_env := ["FOO"] }
    host_app := none
    cpu_limit_ms := none
    memory_limit_mb := none
    widget_bounds := none }

/-- Witness for claim C2 at a concrete consumer session with all write
permissions granted. -/
theorem claim_C2_witness :
    sessionC2.verify_permissions GuestAction.writePayload =
      Except.error (GuestError.mk GuestErrorCode.permissionDenied
        "Owner context required") ∧
    (sessionC2.verify_permissions GuestAction.readPayload = Except.ok () ↔
      sessionC2.effective_permissions.can_read_payload = true) := by
  have h := claim_C2_consumer_containment sessionC2 rfl
  exact ⟨h.1 GuestAction.writePayload (Or.inl rfl), h.2.1⟩

end SyncRs
